import Mathlib

/-!
Verification of the voice-MCPHost repository.

The Python sources are shallowly embedded: Python strings become lists of
characters, the pure text-processing functions of
src/voice_mcp/text_utils.py become Lean functions, and the process-driving
code of src/voice_mcp/mcphost_runner.py and the interaction loop of
src/voice_mcp/voice_mcphost.py become functions over explicit environment
records describing the observable behaviour of the child process and the
collaborators.
-/

namespace VoiceMcp

/-- Python strings are modelled as lists of characters. -/
abbrev Str := List Char

/-- Convert a Lean string literal into the character-list model. -/
def toStr (s : String) : Str := s.data

/-- The set of characters Python treats as whitespace on str values: the
class matched by a whitespace escape in an str regex and stripped by
str.strip(). It contains the ASCII whitespace characters, the ASCII
information-separator control characters, and the Unicode space code
points. -/
def isPySpace (c : Char) : Bool :=
  decide ((9 ≤ c.toNat ∧ c.toNat ≤ 13) ∨ (28 ≤ c.toNat ∧ c.toNat ≤ 32) ∨
    c.toNat = 133 ∨ c.toNat = 160 ∨ c.toNat = 5760 ∨
    (8192 ≤ c.toNat ∧ c.toNat ≤ 8202) ∨ c.toNat = 8232 ∨ c.toNat = 8233 ∨
    c.toNat = 8239 ∨ c.toNat = 8287 ∨ c.toNat = 12288)

/-- Python str.strip(): remove leading and trailing whitespace. -/
def pyStrip (s : Str) : Str :=
  ((s.dropWhile isPySpace).reverse.dropWhile isPySpace).reverse

/-- Python str.split applied with a newline separator: split on every
newline, keeping empty pieces, so the empty string yields one empty line. -/
def splitOnNl : Str → List Str
  | [] => [[]]
  | c :: rest =>
    if c = '\n' then [] :: splitOnNl rest
    else
      match splitOnNl rest with
      | [] => [[c]]
      | line :: ls => (c :: line) :: ls

/-- If pat is an initial segment of s, return the remainder of s after it. -/
def dropMatch : Str → Str → Option Str
  | [], s => some s
  | _ :: _, [] => none
  | a :: as, b :: bs => if a = b then dropMatch as bs else none

/-- Python substring containment, the binary `in` operator on str. -/
def containsSub (needle : Str) : Str → Bool
  | [] => needle.isEmpty
  | c :: rest => (dropMatch needle (c :: rest)).isSome || containsSub needle rest

/-- Python str.join with a single-space separator. -/
def joinSp : List Str → Str
  | [] => []
  | [l] => l
  | l :: l' :: ls => l ++ ' ' :: joinSp (l' :: ls)

/-- The skip_patterns list of clean_mcphost_response
(src/voice_mcp/text_utils.py lines 61-64); the sixth entry is the literal
escape character, code point 27. -/
def skipPatterns : List Str :=
  [toStr "DEBUG", toStr "INFO", toStr "2025/", toStr "creating message",
   toStr "sending messages", [Char.ofNat 27], toStr "ESC", toStr "command:",
   toStr "args:", toStr "buffer", toStr "before", toStr "after"]

/-- The per-line filter of clean_mcphost_response (text_utils.py lines
66-74): a line is kept unless it contains a skip pattern, strips to the
empty string, or more than half of its characters are control characters
(ordinal below 32). -/
def keepLine (line : Str) : Bool :=
  !(skipPatterns.any fun p => containsSub p line) &&
  !(pyStrip line).isEmpty &&
  !(decide (0 < (pyStrip line).length) &&
    decide (line.length / 2 < line.countP fun c => decide (c.toNat < 32)))

/-- Character class kept by the control-character regex substitution of
clean_mcphost_response (text_utils.py line 80): everything outside
code points 0-31 and 127-159. -/
def goodChar (c : Char) : Bool :=
  decide (¬ (c.toNat ≤ 31 ∨ (127 ≤ c.toNat ∧ c.toNat ≤ 159)))

/-- The control-character removal regex substitution (text_utils.py line 80). -/
def stripCtrl (s : Str) : Str := s.filter goodChar

/-- Scan a string up to the first occurrence of stop; on success return the
characters before it and the remainder after it. -/
def scanTo (stop : Char) : Str → Option (Str × Str)
  | [] => none
  | c :: rest =>
    if c = stop then some ([], rest)
    else
      match scanTo stop rest with
      | some (pre, post) => some (c :: pre, post)
      | none => none

/-- Attempt to match, directly after an opening angle bracket, the rest of
the XML-like tag pattern of text_utils.py line 81: at least one
non-closing-bracket character followed by a closing angle bracket. On
success return the remainder of the string after the tag. -/
def findTag : Str → Option Str
  | [] => none
  | c :: rest =>
    if c = '>' then none
    else
      match scanTo '>' rest with
      | some (_, post) => some post
      | none => none

/-- Fuelled scanner for the tag-removal regex substitution of
text_utils.py line 81, removing each leftmost non-overlapping XML-like tag.
The fuel only bounds the recursion; untag supplies enough for the whole
string. -/
def untagF : Nat → Str → Str
  | 0, s => s
  | _ + 1, [] => []
  | fuel + 1, c :: rest =>
    if c = '<' then
      match findTag rest with
      | some r2 => untagF fuel r2
      | none => c :: untagF fuel rest
    else c :: untagF fuel rest

/-- The XML-like tag removal regex substitution (text_utils.py line 81). -/
def untag (s : Str) : Str := untagF s.length s

/-- One pass of the whitespace-collapsing regex substitution: the flag
records whether the previous character was whitespace, in which case
further whitespace is dropped rather than replaced by a space. -/
def collapseAux : Bool → Str → Str
  | _, [] => []
  | prevWs, c :: rest =>
    if isPySpace c then
      (if prevWs then [] else [' ']) ++ collapseAux true rest
    else c :: collapseAux false rest

/-- The whitespace-normalising regex substitution of text_utils.py line 82:
every maximal run of whitespace becomes a single space. -/
def collapseWs (s : Str) : Str := collapseAux false s

/-- Core of clean_mcphost_response (text_utils.py lines 60-85) on a
non-empty string: split into lines, drop denylisted, blank and
control-heavy lines, strip and join the survivors with single spaces, then
remove control characters and XML-like tags and normalise whitespace. -/
def clean_mcphost_core (s : Str) : Str :=
  pyStrip (collapseWs (untag (stripCtrl
    (joinSp (((splitOnNl s).filter keepLine).map pyStrip)))))

/-- clean_mcphost_response (text_utils.py lines 48-88). The argument is an
Option because the Python function first tests its argument for falsiness,
accepting None as well as the empty string. -/
def clean_mcphost_response (response : Option Str) : Str :=
  match response with
  | none => []
  | some s => if s.isEmpty then [] else clean_mcphost_core s

/-- Fuelled engine of Python str.replace: replace each leftmost
non-overlapping occurrence of pat by rep, scanning left to right and never
rescanning replacements. The fuel only bounds the recursion; replaceAll
supplies enough for the whole string. -/
def replaceAllF (pat rep : Str) : Nat → Str → Str
  | 0, s => s
  | _ + 1, [] => []
  | fuel + 1, c :: rest =>
    match dropMatch pat (c :: rest) with
    | some r2 => rep ++ replaceAllF pat rep fuel r2
    | none => c :: replaceAllF pat rep fuel rest

/-- Python str.replace with a non-empty pattern (the only case the
repository uses). -/
def replaceAll (pat rep s : Str) : Str :=
  if pat.isEmpty then s else replaceAllF pat rep s.length s

/-- Attempt to match, directly after an opening square bracket, the rest of
the markdown-link regex of text_utils.py line 23: a non-empty anchor free
of closing square brackets, a closing square bracket, a parenthesised
non-empty target free of closing parentheses. On success return the anchor
text and the remainder after the link. -/
def matchLink (r : Str) : Option (Str × Str) :=
  match scanTo ']' r with
  | some (anchor, r1) =>
    if anchor.isEmpty then none
    else
      match r1 with
      | '(' :: r2 =>
        match scanTo ')' r2 with
        | some (url, r3) => if url.isEmpty then none else some (anchor, r3)
        | none => none
      | _ => none
  | none => none

/-- Fuelled scanner for the markdown-link regex substitution of
text_utils.py line 23, rewriting each leftmost non-overlapping link to its
anchor text. -/
def linkSubF : Nat → Str → Str
  | 0, s => s
  | _ + 1, [] => []
  | fuel + 1, c :: rest =>
    if c = '[' then
      match matchLink rest with
      | some (anchor, r2) => anchor ++ linkSubF fuel r2
      | none => c :: linkSubF fuel rest
    else c :: linkSubF fuel rest

/-- The markdown-link regex substitution (text_utils.py line 23). -/
def linkSub (s : Str) : Str := linkSubF s.length s

/-- The acronym replacement table of clean_text_for_speech (text_utils.py
lines 26-36), in dictionary insertion order. -/
def acronyms : List (Str × Str) :=
  [(toStr "CLI", toStr "command line"), (toStr "API", toStr "A P I"),
   (toStr "JSON", toStr "J SON"), (toStr "HTTP", toStr "H T T P"),
   (toStr "URL", toStr "U R L"), (toStr "SSH", toStr "S S H"),
   (toStr "CPU", toStr "C P U"), (toStr "GPU", toStr "G P U"),
   (toStr "RAM", toStr "R A M")]

/-- clean_text_for_speech before its final truncation step (text_utils.py
lines 16-39): formatting-marker removal, markdown-link rewriting, then the
sequential acronym replacements. The triple-backtick replacement follows
the single-backtick one exactly as in the source, where it can no longer
match anything. -/
def clean_text_pre (text : Str) : Str :=
  let t := replaceAll (toStr "**") [] text
  let t := replaceAll (toStr "*") [] t
  let t := replaceAll (toStr "#") [] t
  let t := replaceAll (toStr "`") [] t
  let t := replaceAll (toStr "```") [] t
  let t := linkSub t
  acronyms.foldl (fun s pr => replaceAll pr.1 pr.2 s) t

/-- The truncation notice appended by clean_text_for_speech
(text_utils.py line 43). -/
def truncNotice : Str := toStr "... The response was truncated for speech."

/-- clean_text_for_speech (text_utils.py lines 6-45): shape text for the
speech engine and truncate to 500 characters plus a notice when longer. -/
def clean_text_for_speech (text : Str) : Str :=
  let t := clean_text_pre text
  if 500 < t.length then t.take 500 ++ truncNotice else t

/-!
Model of MCPHostRunner (src/voice_mcp/mcphost_runner.py). The observable
behaviour of the operating system and the child process during one call is
packaged in a ChildBehavior record; run_mcphost_basic is then a pure
function of that record. Exceptions raised by Python code are modelled as
Except errors carrying the exception message.
-/

/-- Timeout, in seconds, passed to _read_line_with_timeout for the stdout
read of each polling iteration (mcphost_runner.py line 116). -/
def stdoutReadTimeout : ℚ := 1

/-- Timeout, in seconds, passed to _read_line_with_timeout for the stderr
read of each polling iteration (mcphost_runner.py line 121). -/
def stderrReadTimeout : ℚ := 1

/-- Observable behaviour of the environment during one run_mcphost_basic
call. spawnErr is the exception message if subprocess.Popen raises;
writeErr is the exception message if writing or flushing the prompt on the
child's stdin raises; exited says whether process.poll() reports exit at a
given polling iteration; stdoutRead and stderrRead give the line returned
by _read_line_with_timeout (none meaning the read timed out with no data)
as a function of the iteration and the timeout argument; readErr is the
exception message if one of the reads of the iteration raises. -/
structure ChildBehavior where
  spawnErr : Option Str
  writeErr : Option Str
  exited : Nat → Bool
  stdoutRead : Nat → ℚ → Option Str
  stderrRead : Nat → ℚ → Option Str
  readErr : Nat → Option Str

/-- The polling loop of run_mcphost_basic (mcphost_runner.py lines
105-128). The fuel is the number of polling iterations the deadline
`time.time() - start_time < self.response_timeout` still admits; each
iteration first checks whether the child exited, then (unless a read
raises, which breaks out of the loop) reads stdout with stdoutReadTimeout
and stderr with stderrReadTimeout, appending any line read to the
respective accumulator. -/
def pollLoop (b : ChildBehavior) : Nat → Nat → Str → Str → Str × Str
  | 0, _, out, err => (out, err)
  | fuel + 1, i, out, err =>
    if b.exited i then (out, err)
    else
      match b.readErr i with
      | some _ => (out, err)
      | none =>
        pollLoop b fuel (i + 1)
          (out ++ ((b.stdoutRead i stdoutReadTimeout).getD []))
          (err ++ ((b.stderrRead i stderrReadTimeout).getD []))

/-- Result of one run_mcphost_basic call: ret is the value returned (an
Except error would be an exception propagating out of the call);
childSpawned records whether subprocess.Popen succeeded, and childCleaned
whether the terminate-then-kill cleanup block (mcphost_runner.py lines
131-143) was executed before returning. -/
structure RunResult where
  ret : Except Str Str
  childSpawned : Bool
  childCleaned : Bool

/-- Prefix of the message built by the blanket exception handler of
run_mcphost_basic (mcphost_runner.py line 146). -/
def errPref : Str := toStr "Error running MCPHost: "

/-- run_mcphost_basic (mcphost_runner.py lines 71-148). The whole body is
wrapped in a blanket try/except returning an error string, so a spawn or
write failure produces an ok result carrying the handler's message; only
after a successful spawn and write does the polling loop run, followed
unconditionally by the cleanup block, and the returned string labels the
two accumulators. iters is the number of polling iterations the
response-timeout deadline admits. -/
def run_mcphost_basic (b : ChildBehavior) (iters : Nat) : RunResult :=
  match b.spawnErr with
  | some msg => { ret := .ok (errPref ++ msg), childSpawned := false, childCleaned := false }
  | none =>
    match b.writeErr with
    | some msg => { ret := .ok (errPref ++ msg), childSpawned := true, childCleaned := false }
    | none =>
      let acc := pollLoop b iters 0 [] []
      { ret := .ok (toStr "STDOUT:" ++ '\n' :: acc.1 ++ '\n' :: '\n' ::
          toStr "STDERR:" ++ '\n' :: acc.2),
        childSpawned := true, childCleaned := true }

/-- Outcome of the pexpect fallback strategy as observed by run_mcphost:
the import of pexpect fails, the strategy raises with a message, or it
returns a string. -/
inductive PexpectOutcome where
  | importFailed : PexpectOutcome
  | raised : Str → PexpectOutcome
  | returned : Str → PexpectOutcome

/-- The dispatch structure of run_mcphost (mcphost_runner.py lines 24-43)
as a function of the primary strategy's outcome: a returned value is passed
through; an exception triggers the pexpect fallback, whose own failure
modes degrade to fixed diagnostic strings. -/
def run_mcphost_from (basic : Except Str Str) (px : PexpectOutcome) : Except Str Str :=
  match basic with
  | .ok s => .ok s
  | .error e =>
    match px with
    | .returned s2 => .ok s2
    | .importFailed => .ok (toStr "Both approaches failed and pexpect not available")
    | .raised e2 =>
      .ok (toStr "Both approaches failed. Basic: " ++ e ++ toStr ", Pexpect: " ++ e2)

/-- run_mcphost (mcphost_runner.py lines 24-43), composed with the model of
run_mcphost_basic. -/
def run_mcphost (b : ChildBehavior) (iters : Nat) (px : PexpectOutcome) : Except Str Str :=
  run_mcphost_from (run_mcphost_basic b iters).ret px

/-!
Wall-clock model of one run_mcphost_basic call, for the timing bound. Each
primitive operation is assigned the duration it actually took; the polling
loop is driven by the accumulated elapsed time exactly as the source loop
is driven by `time.time() - start_time < self.response_timeout`.
-/

/-- The polling loop of run_mcphost_basic as a clock: starting from elapsed
time t, an iteration runs only while t is below the deadline T, stops early
if the child has exited, and otherwise adds its own duration d i. Returns
the elapsed time on leaving the loop and whether the loop finished (fuel
exhaustion, a model artifact with no source counterpart, reports false). -/
def loopClock (T : ℚ) (exitEarly : Nat → Bool) (d : Nat → ℚ) :
    Nat → Nat → ℚ → ℚ × Bool
  | 0, _, t => if T ≤ t then (t, true) else (t, false)
  | fuel + 1, i, t =>
    if T ≤ t then (t, true)
    else if exitEarly i then (t, true)
    else loopClock T exitEarly d fuel (i + 1) (t + d i)

/-- Durations of the primitive operations of one run_mcphost_basic call:
spawning the child, writing the prompt, one polling iteration (poll plus
the two reads), the graceful-quit block (write plus the 0.5 second sleep,
mcphost_runner.py lines 131-135), and the terminate/wait/kill block
(lines 137-141). -/
structure DispatchCost where
  spawnDur : ℚ
  writeDur : ℚ
  iterDur : Nat → ℚ
  exitEarly : Nat → Bool
  quitDur : ℚ
  termDur : ℚ

/-- Total wall-clock time of one run_mcphost_basic call on the successful
spawn-and-write path, with response timeout T. -/
def dispatchTime (c : DispatchCost) (T : ℚ) (fuel : Nat) : ℚ :=
  c.spawnDur + c.writeDur + (loopClock T c.exitEarly c.iterDur fuel 0 0).1 +
    c.quitDur + c.termDur

/-- Fixed teardown overhead past the deadline: one final polling iteration
(up to the two one-second read timeouts), the half-second sleep of the
graceful-quit block, and the two-second wait of the terminate block. -/
def graceBound : ℚ := (stdoutReadTimeout + stderrReadTimeout) + 1/2 + 2

/-!
Model of the interaction loop of VoiceMCPHost.run_interactive
(src/voice_mcp/voice_mcphost.py lines 127-182): the per-iteration decision
taken on the transcription result.
-/

/-- The exit-command list of run_interactive (voice_mcphost.py line 149). -/
def exitPhrases : List Str :=
  [toStr "exit", toStr "quit", toStr "goodbye", toStr "stop", toStr "bye"]

/-- Python str.lower on the ASCII range, the fragment exercised by the
exit-phrase comparison (all phrases are ASCII). -/
def pyLowerChar (c : Char) : Char :=
  if 'A' ≤ c ∧ c ≤ 'Z' then Char.ofNat (c.toNat + 32) else c

/-- The exit test of run_interactive (voice_mcphost.py line 149):
membership of the lowercased full transcript in the fixed phrase list. -/
def isExitCommand (t : Str) : Bool := exitPhrases.contains (t.map pyLowerChar)

/-- Action taken by one iteration of run_interactive after the
record-and-transcribe step. -/
inductive LoopAction where
  | redoRecording : LoopAction
  | exitSession : LoopAction
  | dispatch : Str → LoopAction
deriving DecidableEq

/-- One iteration of run_interactive (voice_mcphost.py lines 136-154) as a
function of the transcription result: a missing or empty transcript
returns to recording, an exit phrase leaves the loop, anything else is
dispatched to MCPHost. -/
def loopStep (transcript : Option Str) : LoopAction :=
  match transcript with
  | none => .redoRecording
  | some t =>
    if t.isEmpty then .redoRecording
    else if isExitCommand t then .exitSession
    else .dispatch t

/-!
Auxiliary predicates used to state the fixed-point properties of the
sanitizer stages.
-/

/-- The first character, if any, is not whitespace. -/
def headNoSpace : Str → Bool
  | [] => true
  | c :: _ => !isPySpace c

/-- Whitespace-normal form: every whitespace character is a plain space and
is never followed by another whitespace character. Strings in this form
are fixed points of collapseWs. -/
def wsNormal : Str → Bool
  | [] => true
  | [c] => !isPySpace c || decide (c = ' ')
  | c :: d :: rest =>
    (!isPySpace c || (decide (c = ' ') && !isPySpace d)) && wsNormal (d :: rest)

/-- Tag-free form: no opening angle bracket is followed by a completed
XML-like tag. Strings in this form are fixed points of untag. -/
def tagFree : Str → Bool
  | [] => true
  | c :: rest => (if c = '<' then (findTag rest).isNone else true) && tagFree rest

/-!
Theorems. Helper lemmas come first, then one theorem (with its witness or
counterexample where applicable) per specification claim.
-/

/-- run_mcphost_basic returns an ok value for every environment behaviour:
its whole body sits inside a blanket try/except that converts every
exception into an error string. -/
theorem runBasicAlwaysOk (b : ChildBehavior) (iters : Nat) :
    ∃ s, (run_mcphost_basic b iters).ret = .ok s := by
  rcases b with ⟨sp, wr, e, so, se, re⟩
  cases sp with
  | some msg => exact ⟨_, rfl⟩
  | none =>
    cases wr with
    | some msg => exact ⟨_, rfl⟩
    | none => exact ⟨_, rfl⟩

/-- C9: clean_mcphost_response maps both falsy inputs, None and the empty
string, to the empty string. -/
theorem noise_falsy_input_empty :
    clean_mcphost_response none = [] ∧ clean_mcphost_response (some []) = [] :=
  ⟨rfl, rfl⟩

/-- C2 counterexample: a spawn failure does not raise out of
run_mcphost_basic; the call returns ok with the handler's error string, and
consequently run_mcphost returns that same string instead of invoking the
pexpect fallback (whose would-be result is ignored). -/
theorem basic_spawn_failure_returns_ok :
    (run_mcphost_basic
      { spawnErr := some (toStr "boom"), writeErr := none, exited := fun _ => false,
        stdoutRead := fun _ _ => none, stderrRead := fun _ _ => none,
        readErr := fun _ => none } 5).ret = .ok (errPref ++ toStr "boom") ∧
    run_mcphost
      { spawnErr := some (toStr "boom"), writeErr := none, exited := fun _ => false,
        stdoutRead := fun _ _ => none, stderrRead := fun _ _ => none,
        readErr := fun _ => none } 5 (.returned (toStr "fallback")) =
      .ok (errPref ++ toStr "boom") :=
  ⟨rfl, rfl⟩

/-- C2 (amended): run_mcphost_basic never raises at all. An ordinary
timeout produces an ok result, and spawn failures and prompt-write
failures are also swallowed by the blanket handler, which returns the
string built from the exception message, so they cannot trigger the
caller's fallback strategy. -/
theorem basic_never_raises :
    (∀ (b : ChildBehavior) (iters : Nat), ∃ s, (run_mcphost_basic b iters).ret = .ok s) ∧
    (∀ (msg : Str) (e : Nat → Bool) (so se : Nat → ℚ → Option Str)
      (re : Nat → Option Str) (iters : Nat),
      (run_mcphost_basic ⟨some msg, none, e, so, se, re⟩ iters).ret =
        .ok (errPref ++ msg)) ∧
    (∀ (msg : Str) (e : Nat → Bool) (so se : Nat → ℚ → Option Str)
      (re : Nat → Option Str) (iters : Nat),
      (run_mcphost_basic ⟨none, some msg, e, so, se, re⟩ iters).ret =
        .ok (errPref ++ msg)) :=
  ⟨runBasicAlwaysOk, fun _ _ _ _ _ _ => rfl, fun _ _ _ _ _ _ => rfl⟩

/-- C3 counterexample: when the spawn succeeds but writing the prompt to
the child's stdin raises, run_mcphost_basic returns through the blanket
handler without ever running the terminate-then-kill cleanup, so the
spawned child outlives the call. -/
theorem write_failure_leaks_child :
    (run_mcphost_basic
      { spawnErr := none, writeErr := some (toStr "broken pipe"), exited := fun _ => false,
        stdoutRead := fun _ _ => none, stderrRead := fun _ _ => none,
        readErr := fun _ => none } 5).childSpawned = true ∧
    (run_mcphost_basic
      { spawnErr := none, writeErr := some (toStr "broken pipe"), exited := fun _ => false,
        stdoutRead := fun _ _ => none, stderrRead := fun _ _ => none,
        readErr := fun _ => none } 5).childCleaned = false :=
  ⟨rfl, rfl⟩

/-- C3 (amended): on every run in which both the spawn and the prompt
write succeed — including runs whose polling loop is cut short by a read
exception — the cleanup block that terminates and, if necessary, kills the
child is executed before run_mcphost_basic returns; only a prompt-write
failure can leak the spawned child. -/
theorem child_cleaned_on_normal_paths :
    ∀ (e : Nat → Bool) (so se : Nat → ℚ → Option Str) (re : Nat → Option Str)
      (iters : Nat),
      (run_mcphost_basic ⟨none, none, e, so, se, re⟩ iters).childCleaned = true :=
  fun _ _ _ _ _ => rfl

/-- C5: run_mcphost always returns a string: whatever the primary strategy
and the pexpect fallback do, the result is ok; an error from the primary
strategy selects the fallback's result, and the fallback's failure modes
degrade to the fixed diagnostic strings of the source. -/
theorem run_mcphost_total :
    (∀ (b : ChildBehavior) (iters : Nat) (px : PexpectOutcome),
      ∃ s, run_mcphost b iters px = .ok s) ∧
    (∀ (e s2 : Str), run_mcphost_from (.error e) (.returned s2) = .ok s2) ∧
    (∀ (e e2 : Str), run_mcphost_from (.error e) (.raised e2) =
      .ok (toStr "Both approaches failed. Basic: " ++ e ++ toStr ", Pexpect: " ++ e2)) ∧
    (∀ (e : Str), run_mcphost_from (.error e) .importFailed =
      .ok (toStr "Both approaches failed and pexpect not available")) := by
  refine ⟨fun b iters px => ?_, fun _ _ => rfl, fun _ _ => rfl, fun _ => rfl⟩
  obtain ⟨s, hs⟩ := runBasicAlwaysOk b iters
  exact ⟨s, by rw [run_mcphost, hs]; rfl⟩

/-- C6: the interaction loop leaves for the exit state exactly when the
lowercased full transcript is one of the five fixed phrases. The matching
is case-insensitive but whole-string: the transcript containing an exit
phrase as a proper substring is dispatched, not treated as an exit. -/
theorem exit_check_exact_match :
    loopStep (some (toStr "STOP")) = .exitSession ∧
    containsSub (toStr "stop") (toStr "please stop") = true ∧
    loopStep (some (toStr "please stop")) = .dispatch (toStr "please stop") ∧
    ∀ t : Str, loopStep (some t) = .exitSession ↔ (t.map pyLowerChar) ∈ exitPhrases := by
  refine ⟨by decide, by decide, by decide, fun t => ?_⟩
  cases t with
  | nil => simp [loopStep, exitPhrases, toStr]
  | cons c rest =>
    simp only [loopStep, List.isEmpty_cons, if_false, Bool.false_eq_true]
    by_cases h : isExitCommand (c :: rest)
    · simp only [h, if_true, true_iff]
      simpa [isExitCommand, List.elem_iff] using h
    · simp only [h, if_false]
      constructor
      · intro hcontra; exact absurd hcontra (by simp)
      · intro hmem
        exact absurd (by simpa [isExitCommand, List.elem_iff] using hmem) h

/-- C7 counterexample: in the package runner the stderr read of each
polling iteration uses the same one-second timeout as the stdout read, not
a strictly shorter one (the 0.1-second stderr timeout exists only in the
legacy standalone script test.py). -/
theorem stderr_timeout_not_shorter :
    ¬ stderrReadTimeout < stdoutReadTimeout ∧
    stdoutReadTimeout = 1 ∧ stderrReadTimeout = 1 := by
  refine ⟨?_, rfl, rfl⟩
  simp [stdoutReadTimeout, stderrReadTimeout]

/-- Polling with a never-exiting, never-erroring child that produces no
data leaves both accumulators empty for the whole deadline. -/
theorem pollLoop_silent (b : ChildBehavior) (hex : ∀ i, b.exited i = false)
    (hre : ∀ i, b.readErr i = none) (hso : ∀ i q, b.stdoutRead i q = none)
    (hse : ∀ i q, b.stderrRead i q = none) :
    ∀ (fuel i : Nat), pollLoop b fuel i [] [] = ([], []) := by
  intro fuel
  induction fuel with
  | zero => intro i; rfl
  | succ n ih =>
    intro i
    simp only [pollLoop, hex i, hre i, hso, hse, Bool.false_eq_true, if_false,
      Option.getD_none, List.append_nil]
    exact ih (i + 1)

/-- C7 (amended): each polling iteration first checks for child exit and
returns the accumulators untouched if the child has exited; otherwise, when
no read raises, it appends the (possibly absent) stdout line read with the
one-second timeout and the (possibly absent) stderr line read with the
equal one-second timeout and continues; reads that return nothing are not
errors — with a silent child the loop simply runs on to the deadline with
empty accumulators. -/
theorem poll_loop_iteration_structure :
    (∀ (sp wr : Option Str) (so se : Nat → ℚ → Option Str) (re : Nat → Option Str)
      (fuel i : Nat) (out err : Str),
      pollLoop ⟨sp, wr, fun _ => true, so, se, re⟩ (fuel + 1) i out err = (out, err)) ∧
    (∀ (sp wr : Option Str) (so se : Nat → ℚ → Option Str) (fuel i : Nat)
      (out err : Str),
      pollLoop ⟨sp, wr, fun _ => false, so, se, fun _ => none⟩ (fuel + 1) i out err =
        pollLoop ⟨sp, wr, fun _ => false, so, se, fun _ => none⟩ fuel (i + 1)
          (out ++ (so i stdoutReadTimeout).getD []) (err ++ (se i stderrReadTimeout).getD [])) ∧
    (∀ (sp wr : Option Str) (fuel i : Nat),
      pollLoop ⟨sp, wr, fun _ => false, fun _ _ => none, fun _ _ => none, fun _ => none⟩
        fuel i [] [] = ([], [])) ∧
    stdoutReadTimeout = 1 ∧ stderrReadTimeout = 1 := by
  refine ⟨fun _ _ _ _ _ _ _ _ _ => rfl, fun _ _ _ _ _ _ _ _ => rfl,
    fun sp wr fuel i => ?_, rfl, rfl⟩
  exact pollLoop_silent _ (fun _ => rfl) (fun _ => rfl) (fun _ _ => rfl)
    (fun _ _ => rfl) fuel i

/-- The elapsed clock of the polling loop never passes the deadline by more
than the duration of one iteration. -/
theorem loopClock_le (T M : ℚ) (ex : Nat → Bool) (d : Nat → ℚ)
    (hd : ∀ j, 0 ≤ d j ∧ d j ≤ M) :
    ∀ (fuel i : Nat) (t : ℚ), t ≤ T + M → (loopClock T ex d fuel i t).1 ≤ T + M := by
  intro fuel
  induction fuel with
  | zero =>
    intro i t ht
    by_cases h : T ≤ t <;> simp [loopClock, h, ht]
  | succ n ih =>
    intro i t ht
    by_cases h : T ≤ t
    · simp [loopClock, h, ht]
    · by_cases hx : ex i
      · simp [loopClock, h, hx, ht]
      · have hrec := ih (i + 1) (t + d i)
          (by push_neg at h; nlinarith [(hd i).1, (hd i).2])
        simpa [loopClock, h, hx] using hrec

/-- With a positive lower bound on each iteration's duration and enough
fuel to cover the deadline, the polling loop finishes. -/
theorem loopClock_finishes (T δ : ℚ) (ex : Nat → Bool) (d : Nat → ℚ)
    (hδ : ∀ j, δ ≤ d j) :
    ∀ (fuel i : Nat) (t : ℚ), T ≤ t + fuel * δ → (loopClock T ex d fuel i t).2 = true := by
  intro fuel
  induction fuel with
  | zero =>
    intro i t ht
    have hT : T ≤ t := by simpa using ht
    simp [loopClock, hT]
  | succ n ih =>
    intro i t ht
    by_cases h : T ≤ t
    · simp [loopClock, h]
    · by_cases hx : ex i
      · simp [loopClock, h, hx]
      · have hrec := ih (i + 1) (t + d i) (by
          have := hδ i
          have : t + (n + 1 : ℕ) * δ ≤ t + d i + n * δ := by
            push_cast
            nlinarith
          linarith)
        simpa [loopClock, h, hx] using hrec

/-- C4: whatever the child does — including never exiting and never
producing output — one run_mcphost_basic call on the successful
spawn-and-write path takes at most the response timeout T plus the fixed
grace overhead (one final polling iteration of at most the two one-second
read timeouts, the half-second quit sleep, and the two-second terminate
wait) plus the spawn and write durations; and when every iteration takes
at least some positive time δ with enough fuel to span T, the polling loop
does finish. The hypotheses state the cost model: every iteration costs at
most its two read timeouts, and the quit and terminate blocks respect the
sleep and wait bounds of the source. -/
theorem dispatch_time_bounded (c : DispatchCost) (T sB wB : ℚ) (fuel : Nat)
    (hT : 0 ≤ T)
    (hiter : ∀ j, 0 ≤ c.iterDur j ∧ c.iterDur j ≤ stdoutReadTimeout + stderrReadTimeout)
    (hspawn : c.spawnDur ≤ sB) (hwrite : c.writeDur ≤ wB)
    (hquit : c.quitDur ≤ 1/2) (hterm : c.termDur ≤ 2) :
    dispatchTime c T fuel ≤ T + sB + wB + graceBound ∧
    (∀ δ : ℚ, 0 < δ → (∀ j, δ ≤ c.iterDur j) → T ≤ fuel * δ →
      (loopClock T c.exitEarly c.iterDur fuel 0 0).2 = true) := by
  constructor
  · have hM : (0 : ℚ) ≤ T + (stdoutReadTimeout + stderrReadTimeout) := by
      simp only [stdoutReadTimeout, stderrReadTimeout]
      linarith
    have hloop := loopClock_le T (stdoutReadTimeout + stderrReadTimeout)
      c.exitEarly c.iterDur hiter fuel 0 0 hM
    simp only [dispatchTime, graceBound, stdoutReadTimeout, stderrReadTimeout] at *
    linarith
  · intro δ hδpos hδ hfuel
    exact loopClock_finishes T δ c.exitEarly c.iterDur hδ fuel 0 0 (by linarith)

/-- C4 witness: with a 30-second timeout, one-second spawn and write, full
two-second iterations and the maximal cleanup costs, the call finishes and
its total time is within the bound. -/
theorem dispatch_time_bounded_witness :
    dispatchTime ⟨1, 1, fun _ => 2, fun _ => false, 1/2, 2⟩ 30 16 ≤ 30 + 1 + 1 + graceBound ∧
    (loopClock 30 (fun _ => false) (fun _ => 2) 16 0 0).2 = true := by
  have h := dispatch_time_bounded ⟨1, 1, fun _ => 2, fun _ => false, 1/2, 2⟩ 30 1 1 16
    (by norm_num)
    (fun j => by norm_num [stdoutReadTimeout, stderrReadTimeout])
    (by norm_num) (by norm_num) (by norm_num) (by norm_num)
  exact ⟨h.1, h.2 2 (by norm_num) (fun j => by norm_num) (by norm_num)⟩

/-- A replacement whose pattern does not occur leaves the string unchanged,
for any fuel. -/
theorem replaceAllF_not_contains (pat rep : Str) :
    ∀ (fuel : Nat) (s : Str), containsSub pat s = false → replaceAllF pat rep fuel s = s := by
  intro fuel
  induction fuel with
  | zero => intro s _; rfl
  | succ n ih =>
    intro s hs
    cases s with
    | nil => rfl
    | cons c rest =>
      simp only [containsSub, Bool.or_eq_false_iff] at hs
      simp only [replaceAllF]
      rcases hmatch : dropMatch pat (c :: rest) with _ | r2
      · rw [ih rest hs.2]
      · rw [hmatch] at hs
        simp at hs

/-- Python str.replace with an absent pattern is the identity. -/
theorem replaceAll_not_contains (pat rep s : Str) (h : containsSub pat s = false) :
    replaceAll pat rep s = s := by
  unfold replaceAll
  by_cases hp : pat.isEmpty <;> simp [hp, replaceAllF_not_contains pat rep s.length s h]

/-- A pattern whose first character differs from a never occurs as a
substring of a replicate of a. -/
theorem contains_repl_false (pat : Str) (c0 a : Char) (h : pat.head? = some c0)
    (hc : c0 ≠ a) : ∀ n : Nat, containsSub pat (List.replicate n a) = false := by
  cases pat with
  | nil => simp at h
  | cons p ps =>
    simp only [List.head?_cons, Option.some_inj] at h
    subst h
    intro n
    induction n with
    | zero => simp [containsSub, List.replicate]
    | succ m ih =>
      simp only [List.replicate, containsSub, dropMatch, Bool.or_eq_false_iff]
      refine ⟨?_, ih⟩
      simp [hc]

/-- The markdown-link rewrite leaves a string without opening square
brackets unchanged, for any fuel. -/
theorem linkSubF_no_bracket :
    ∀ (fuel : Nat) (s : Str), '[' ∉ s → linkSubF fuel s = s := by
  intro fuel
  induction fuel with
  | zero => intro s _; rfl
  | succ n ih =>
    intro s hs
    cases s with
    | nil => rfl
    | cons c rest =>
      have hc : c ≠ '[' := fun h => hs (h ▸ List.mem_cons_self c rest)
      have hrest : '[' ∉ rest := fun h => hs (List.mem_cons_of_mem c h)
      simp [linkSubF, hc, ih rest hrest]

/-- Folding replacements none of whose patterns occur is the identity. -/
theorem foldl_replaceAll_id (l : List (Str × Str)) (s : Str)
    (h : ∀ pr ∈ l, containsSub pr.1 s = false) :
    l.foldl (fun s pr => replaceAll pr.1 pr.2 s) s = s := by
  induction l with
  | nil => rfl
  | cons pr rest ih =>
    simp only [List.foldl_cons]
    rw [replaceAll_not_contains _ _ _ (h pr (List.mem_cons_self pr rest))]
    exact ih fun q hq => h q (List.mem_cons_of_mem pr hq)

/-- On a run of 501 letters a, the pre-truncation processing of
clean_text_for_speech changes nothing: none of the formatting markers, no
link pattern and no acronym occurs. -/
theorem clean_text_pre_replicate : clean_text_pre (List.replicate 501 'a') = List.replicate 501 'a' := by
  have hrep : ∀ (p : Str) (c0 : Char), p.head? = some c0 → c0 ≠ 'a' →
      containsSub p (List.replicate 501 'a') = false :=
    fun p c0 hh hc => contains_repl_false p c0 'a' hh hc 501
  show acronyms.foldl (fun s pr => replaceAll pr.1 pr.2 s)
    (linkSub (replaceAll (toStr "```") [] (replaceAll (toStr "`") []
      (replaceAll (toStr "#") [] (replaceAll (toStr "*") []
        (replaceAll (toStr "**") [] (List.replicate 501 'a'))))))) =
    List.replicate 501 'a'
  rw [replaceAll_not_contains _ _ _ (hrep (toStr "**") '*' rfl (by decide))]
  rw [replaceAll_not_contains _ _ _ (hrep (toStr "*") '*' rfl (by decide))]
  rw [replaceAll_not_contains _ _ _ (hrep (toStr "#") '#' rfl (by decide))]
  rw [replaceAll_not_contains _ _ _ (hrep (toStr "`") '`' rfl (by decide))]
  rw [replaceAll_not_contains _ _ _ (hrep (toStr "```") '`' rfl (by decide))]
  rw [show linkSub (List.replicate 501 'a') = List.replicate 501 'a' from
    linkSubF_no_bracket _ _ (fun h => absurd ((List.mem_replicate.mp h).2) (by decide))]
  refine foldl_replaceAll_id _ _ fun pr hpr => ?_
  simp only [acronyms, List.mem_cons, List.not_mem_nil, or_false] at hpr
  rcases hpr with h|h|h|h|h|h|h|h|h <;> subst h
  · exact hrep _ 'C' rfl (by decide)
  · exact hrep _ 'A' rfl (by decide)
  · exact hrep _ 'J' rfl (by decide)
  · exact hrep _ 'H' rfl (by decide)
  · exact hrep _ 'U' rfl (by decide)
  · exact hrep _ 'S' rfl (by decide)
  · exact hrep _ 'C' rfl (by decide)
  · exact hrep _ 'G' rfl (by decide)
  · exact hrep _ 'R' rfl (by decide)

/-- C10: the speech-shaping stage never returns more than 542 characters;
its truncation notice is exactly 42 characters, and whenever the processed
text exceeds 500 characters the result is its first 500 characters
followed by that notice. -/
theorem speech_truncation_bound :
    (∀ x : Str, (clean_text_for_speech x).length ≤ 542) ∧
    truncNotice.length = 42 ∧
    (∀ x : Str, 500 < (clean_text_pre x).length →
      clean_text_for_speech x = (clean_text_pre x).take 500 ++ truncNotice) := by
  refine ⟨fun x => ?_, by decide, fun x h => ?_⟩
  · show (if 500 < (clean_text_pre x).length then
        (clean_text_pre x).take 500 ++ truncNotice else clean_text_pre x).length ≤ 542
    by_cases h : 500 < (clean_text_pre x).length
    · simp only [h, if_true, List.length_append, List.length_take]
      have : truncNotice.length = 42 := by decide
      omega
    · simp only [h, if_false]
      omega
  · show (if 500 < (clean_text_pre x).length then
        (clean_text_pre x).take 500 ++ truncNotice else clean_text_pre x) =
      (clean_text_pre x).take 500 ++ truncNotice
    rw [if_pos h]

/-- C10 witness: 501 letters a exceed the budget and are truncated to the
first 500 plus the notice. -/
theorem speech_truncation_bound_witness :
    500 < (clean_text_pre (List.replicate 501 'a')).length ∧
    clean_text_for_speech (List.replicate 501 'a') =
      (clean_text_pre (List.replicate 501 'a')).take 500 ++ truncNotice := by
  have hlen : 500 < (clean_text_pre (List.replicate 501 'a')).length := by
    rw [clean_text_pre_replicate, List.length_replicate]; norm_num
  exact ⟨hlen, speech_truncation_bound.2.2 _ hlen⟩

/-- Dropping a prefix twice is the same as dropping it once. -/
theorem dropWhile_self_idem (p : Char → Bool) (l : Str) :
    List.dropWhile p (List.dropWhile p l) = List.dropWhile p l := by
  induction l with
  | nil => rfl
  | cons a l ih =>
    by_cases h : p a
    · simp [List.dropWhile_cons, h, ih]
    · simp [List.dropWhile_cons, h]

/-- After dropping leading whitespace, the head is not whitespace. -/
theorem headNoSpace_dropWhile (s : Str) : headNoSpace (s.dropWhile isPySpace) = true := by
  induction s with
  | nil => rfl
  | cons a l ih =>
    by_cases h : isPySpace a
    · simpa [List.dropWhile_cons, h] using ih
    · simp [List.dropWhile_cons, headNoSpace, h]

/-- A string whose head is not whitespace is unchanged by leading
whitespace removal. -/
theorem dropWhile_eq_self_of_headNoSpace (s : Str) (h : headNoSpace s = true) :
    s.dropWhile isPySpace = s := by
  cases s with
  | nil => rfl
  | cons a l =>
    simp only [headNoSpace, Bool.not_eq_true'] at h
    simp [List.dropWhile_cons, h]

/-- Right-stripping removes a suffix: the original string is the stripped
string followed by the removed part. -/
theorem rstrip_append (t : Str) :
    ∃ w, t = (t.reverse.dropWhile isPySpace).reverse ++ w := by
  refine ⟨(t.reverse.takeWhile isPySpace).reverse, ?_⟩
  calc t = t.reverse.reverse := (List.reverse_reverse t).symm
    _ = (t.reverse.takeWhile isPySpace ++ t.reverse.dropWhile isPySpace).reverse := by
        rw [List.takeWhile_append_dropWhile]
    _ = _ := by rw [List.reverse_append]

/-- A non-whitespace head survives truncation of the string. -/
theorem headNoSpace_of_append (u w : Str) (h : headNoSpace (u ++ w) = true) :
    headNoSpace u = true := by
  cases u with
  | nil => rfl
  | cons a l => simpa [headNoSpace] using h

/-- Python str.strip is idempotent. -/
theorem pyStrip_idem (s : Str) : pyStrip (pyStrip s) = pyStrip s := by
  have hhead : headNoSpace (s.dropWhile isPySpace) = true := headNoSpace_dropWhile s
  have hps : pyStrip s = ((s.dropWhile isPySpace).reverse.dropWhile isPySpace).reverse := rfl
  obtain ⟨w, hw⟩ := rstrip_append (s.dropWhile isPySpace)
  have hheadu : headNoSpace (pyStrip s) = true := by
    rw [hps]
    exact headNoSpace_of_append _ w (hw ▸ hhead)
  have h1 : (pyStrip s).dropWhile isPySpace = pyStrip s :=
    dropWhile_eq_self_of_headNoSpace _ hheadu
  show (((pyStrip s).dropWhile isPySpace).reverse.dropWhile isPySpace).reverse = pyStrip s
  rw [h1, hps, List.reverse_reverse, dropWhile_self_idem]

/-- Members of a whitespace-dropped list are members of the original. -/
theorem mem_of_dropWhile (p : Char → Bool) (l : Str) (c : Char)
    (h : c ∈ l.dropWhile p) : c ∈ l := by
  induction l with
  | nil => simp at h
  | cons a rest ih =>
    by_cases ha : p a
    · exact List.mem_cons_of_mem _ (ih (by simpa [List.dropWhile_cons, ha] using h))
    · simpa [List.dropWhile_cons, ha] using h

/-- Members of a stripped string are members of the original. -/
theorem mem_pyStrip (s : Str) (c : Char) (h : c ∈ pyStrip s) : c ∈ s := by
  have h1 : c ∈ (s.dropWhile isPySpace).reverse.dropWhile isPySpace :=
    List.mem_reverse.mp h
  have h2 : c ∈ s.dropWhile isPySpace :=
    List.mem_reverse.mp (mem_of_dropWhile _ _ _ h1)
  exact mem_of_dropWhile _ _ _ h2

/-- Whatever follows the stop character in a successful scan belongs to the
scanned string. -/
theorem scanTo_sub (stop : Char) :
    ∀ (s pre post : Str), scanTo stop s = some (pre, post) → ∀ x ∈ post, x ∈ s := by
  intro s
  induction s with
  | nil => intro pre post h; simp [scanTo] at h
  | cons c rest ih =>
    intro pre post h x hx
    by_cases hc : c = stop
    · simp only [scanTo, if_pos hc, Option.some.injEq, Prod.mk.injEq] at h
      obtain ⟨-, rfl⟩ := h
      exact List.mem_cons_of_mem _ hx
    · simp only [scanTo, if_neg hc] at h
      rcases hscan : scanTo stop rest with _ | ⟨pre', post'⟩ <;> rw [hscan] at h
      · simp at h
      · simp only [Option.some.injEq, Prod.mk.injEq] at h
        obtain ⟨-, rfl⟩ := h
        exact List.mem_cons_of_mem _ (ih pre' post' hscan x hx)

/-- A successful scan strictly shortens the string. -/
theorem scanTo_len (stop : Char) :
    ∀ (s pre post : Str), scanTo stop s = some (pre, post) → post.length < s.length := by
  intro s
  induction s with
  | nil => intro pre post h; simp [scanTo] at h
  | cons c rest ih =>
    intro pre post h
    by_cases hc : c = stop
    · simp only [scanTo, if_pos hc, Option.some.injEq, Prod.mk.injEq] at h
      obtain ⟨-, rfl⟩ := h
      simp [List.length_cons]
    · simp only [scanTo, if_neg hc] at h
      rcases hscan : scanTo stop rest with _ | ⟨pre', post'⟩ <;> rw [hscan] at h
      · simp at h
      · simp only [Option.some.injEq, Prod.mk.injEq] at h
        obtain ⟨-, rfl⟩ := h
        have := ih pre' post' hscan
        simp only [List.length_cons]
        omega

/-- The remainder after a successful tag match belongs to the string. -/
theorem findTag_sub (s r2 : Str) (h : findTag s = some r2) : ∀ x ∈ r2, x ∈ s := by
  cases s with
  | nil => simp [findTag] at h
  | cons c rest =>
    by_cases hc : c = '>'
    · simp [findTag, hc] at h
    · rcases hscan : scanTo '>' rest with _ | ⟨pre, post⟩
      · simp [findTag, hc, hscan] at h
      · simp only [findTag, if_neg hc, hscan, Option.some.injEq] at h
        subst h
        exact fun x hx => List.mem_cons_of_mem _ (scanTo_sub '>' rest pre _ hscan x hx)

/-- A successful tag match consumes at least the bracketed content and the
closing bracket. -/
theorem findTag_some_len (s r2 : Str) (h : findTag s = some r2) :
    r2.length + 2 ≤ s.length := by
  cases s with
  | nil => simp [findTag] at h
  | cons c rest =>
    by_cases hc : c = '>'
    · simp [findTag, hc] at h
    · rcases hscan : scanTo '>' rest with _ | ⟨pre, post⟩
      · simp [findTag, hc, hscan] at h
      · simp only [findTag, if_neg hc, hscan, Option.some.injEq] at h
        subst h
        have := scanTo_len '>' rest pre _ hscan
        simp only [List.length_cons]
        omega

/-- Tag removal introduces no new characters. -/
theorem mem_untagF : ∀ (fuel : Nat) (s : Str) (c : Char), c ∈ untagF fuel s → c ∈ s := by
  intro fuel
  induction fuel with
  | zero => intro s c h; exact h
  | succ n ih =>
    intro s c h
    cases s with
    | nil => simp [untagF] at h
    | cons a rest =>
      by_cases ha : a = '<'
      · rcases hft : findTag rest with _ | r2
        · simp only [untagF, if_pos ha, hft] at h
          rcases List.mem_cons.mp h with h1 | h1
          · exact List.mem_cons.mpr (Or.inl h1)
          · exact List.mem_cons_of_mem _ (ih rest c h1)
        · simp only [untagF, if_pos ha, hft] at h
          exact List.mem_cons_of_mem _ (findTag_sub rest r2 hft c (ih r2 c h))
      · simp only [untagF, if_neg ha] at h
        rcases List.mem_cons.mp h with h1 | h1
        · exact List.mem_cons.mpr (Or.inl h1)
        · exact List.mem_cons_of_mem _ (ih rest c h1)

/-- Whitespace collapsing introduces no characters other than spaces. -/
theorem mem_collapseAux :
    ∀ (s : Str) (b : Bool) (c : Char), c ∈ collapseAux b s → c ∈ s ∨ c = ' ' := by
  intro s
  induction s with
  | nil => intro b c h; simp [collapseAux] at h
  | cons a rest ih =>
    intro b c h
    by_cases ha : isPySpace a
    · simp only [collapseAux, if_pos ha] at h
      rcases List.mem_append.mp h with h1 | h1
      · right
        cases b
        · simpa using List.mem_singleton.mp (by simpa using h1)
        · simp at h1
      · rcases ih true c h1 with h2 | h2
        · exact Or.inl (List.mem_cons_of_mem _ h2)
        · exact Or.inr h2
    · simp only [collapseAux, if_neg ha] at h
      rcases List.mem_cons.mp h with h1 | h1
      · exact Or.inl (List.mem_cons.mpr (Or.inl h1))
      · rcases ih false c h1 with h2 | h2
        · exact Or.inl (List.mem_cons_of_mem _ h2)
        · exact Or.inr h2

/-- Whitespace-normal form passes to the tail. -/
theorem wsNormal_tail (c : Char) (l : Str) (h : wsNormal (c :: l) = true) :
    wsNormal l = true := by
  cases l with
  | nil => rfl
  | cons d rest => exact (Bool.and_eq_true_iff.mp h).2

/-- After a whitespace character has just been emitted, the collapse pass
never starts its output with whitespace. -/
theorem headNoSpace_collapseTrue (s : Str) : headNoSpace (collapseAux true s) = true := by
  induction s with
  | nil => rfl
  | cons a rest ih =>
    by_cases ha : isPySpace a
    · simpa [collapseAux, ha] using ih
    · simp [collapseAux, ha, headNoSpace]

/-- Equation: the collapse pass on leading whitespace not preceded by
whitespace emits one space. -/
theorem collapseAux_false_space (a : Char) (rest : Str) (ha : isPySpace a = true) :
    collapseAux false (a :: rest) = ' ' :: collapseAux true rest := by
  simp [collapseAux, ha]

/-- Equation: the collapse pass on whitespace preceded by whitespace drops
the character. -/
theorem collapseAux_true_space (a : Char) (rest : Str) (ha : isPySpace a = true) :
    collapseAux true (a :: rest) = collapseAux true rest := by
  simp [collapseAux, ha]

/-- Equation: the collapse pass copies a non-whitespace character. -/
theorem collapseAux_nospace (b : Bool) (a : Char) (rest : Str) (ha : isPySpace a = false) :
    collapseAux b (a :: rest) = a :: collapseAux false rest := by
  simp [collapseAux, ha]

/-- Equation: whitespace-normal form on two or more characters. -/
theorem wsNormal_cons₂ (c d : Char) (l : Str) :
    wsNormal (c :: d :: l) =
      ((!isPySpace c || (decide (c = ' ') && !isPySpace d)) && wsNormal (d :: l)) := rfl

/-- The output of the whitespace collapse pass is whitespace-normal. -/
theorem wsNormal_collapseAux (s : Str) : ∀ b, wsNormal (collapseAux b s) = true := by
  induction s with
  | nil => intro b; rfl
  | cons a rest ih =>
    intro b
    by_cases ha : isPySpace a
    · cases b
      · rw [collapseAux_false_space a rest ha]
        rcases hc : collapseAux true rest with _ | ⟨d, r⟩
        · decide
        · have hd : headNoSpace (d :: r) = true := hc ▸ headNoSpace_collapseTrue rest
          simp only [headNoSpace] at hd
          have hwr : wsNormal (d :: r) = true := hc ▸ ih true
          rw [wsNormal_cons₂]
          simp [hwr, hd]
      · rw [collapseAux_true_space a rest ha]
        exact ih true
    · have ha' : isPySpace a = false := by simpa using ha
      rw [collapseAux_nospace b a rest ha']
      rcases hc : collapseAux false rest with _ | ⟨d, r⟩
      · simp [wsNormal, ha']
      · have hwr : wsNormal (d :: r) = true := hc ▸ ih false
        rw [wsNormal_cons₂]
        simp [ha', hwr]

/-- A whitespace-normal string is a fixed point of the collapse pass. -/
theorem collapse_fix : ∀ s : Str, wsNormal s = true → collapseAux false s = s
  | [], _ => rfl
  | [c], h => by
    by_cases hc : isPySpace c
    · have h1 : (!isPySpace c || decide (c = ' ')) = true := h
      rw [hc] at h1
      simp only [Bool.not_true, Bool.false_or, decide_eq_true_eq] at h1
      subst h1
      decide
    · have hc' : isPySpace c = false := by simpa using hc
      rw [collapseAux_nospace false c [] hc']
      rfl
  | c :: d :: rest, h => by
    have h1 : (!isPySpace c || (decide (c = ' ') && !isPySpace d)) = true :=
      (Bool.and_eq_true_iff.mp h).1
    have h2 : wsNormal (d :: rest) = true := (Bool.and_eq_true_iff.mp h).2
    by_cases hc : isPySpace c
    · rw [hc] at h1
      simp only [Bool.not_true, Bool.false_or, Bool.and_eq_true_iff,
        decide_eq_true_eq, Bool.not_eq_true'] at h1
      obtain ⟨hceq, hdns⟩ := h1
      rw [collapseAux_false_space c (d :: rest) hc, collapseAux_nospace true d rest hdns,
        collapse_fix rest (wsNormal_tail d rest h2), hceq]
    · have hc' : isPySpace c = false := by simpa using hc
      rw [collapseAux_nospace false c (d :: rest) hc', collapse_fix (d :: rest) h2]

/-- Whitespace-normal form restricts to an initial segment. -/
theorem wsNormal_append_left : ∀ u v : Str, wsNormal (u ++ v) = true → wsNormal u = true
  | [], _, _ => rfl
  | [c], v, h => by
    cases v with
    | nil => simpa using h
    | cons d r =>
      have h' : wsNormal (c :: d :: r) = true := by simpa using h
      have h1 : (!isPySpace c || (decide (c = ' ') && !isPySpace d)) = true :=
        (Bool.and_eq_true_iff.mp h').1
      rcases Bool.or_eq_true_iff.mp h1 with h2 | h2
      · simp [wsNormal, h2]
      · have h3 : decide (c = ' ') = true := (Bool.and_eq_true_iff.mp h2).1
        simp [wsNormal, h3]
  | c :: d :: u', v, h => by
    have h' : wsNormal (c :: d :: (u' ++ v)) = true := by simpa using h
    have h1 := (Bool.and_eq_true_iff.mp h').1
    have h2 := (Bool.and_eq_true_iff.mp h').2
    have htail : wsNormal (d :: u') = true :=
      wsNormal_append_left (d :: u') v (by simpa using h2)
    exact Bool.and_eq_true_iff.mpr ⟨h1, htail⟩

/-- Whitespace-normal form restricts to a final segment. -/
theorem wsNormal_append_right : ∀ u v : Str, wsNormal (u ++ v) = true → wsNormal v = true
  | [], _, h => h
  | c :: u', v, h =>
    wsNormal_append_right u' v (wsNormal_tail c _ (by simpa using h))

/-- Stripping preserves whitespace-normal form. -/
theorem wsNormal_pyStrip (s : Str) (h : wsNormal s = true) : wsNormal (pyStrip s) = true := by
  have h1 : wsNormal (s.dropWhile isPySpace) = true := by
    obtain ⟨u, hu⟩ : ∃ u, s = u ++ s.dropWhile isPySpace :=
      ⟨s.takeWhile isPySpace, (List.takeWhile_append_dropWhile isPySpace s).symm⟩
    exact wsNormal_append_right u _ (hu ▸ h)
  obtain ⟨w, hw⟩ := rstrip_append (s.dropWhile isPySpace)
  exact wsNormal_append_left _ w (hw ▸ h1)

/-- A scan fails exactly when the stop character is absent. -/
theorem scanTo_none_iff (stop : Char) :
    ∀ s : Str, scanTo stop s = none ↔ stop ∉ s := by
  intro s
  induction s with
  | nil => simp [scanTo]
  | cons c rest ih =>
    by_cases hc : c = stop
    · subst hc
      simp [scanTo]
    · simp only [scanTo, if_neg hc]
      rcases hscan : scanTo stop rest with _ | ⟨pre, post⟩
      · have hrest : stop ∉ rest := ih.mp hscan
        constructor
        · intro _ hm
          rcases List.mem_cons.mp hm with h1 | h1
          · exact hc h1.symm
          · exact hrest h1
        · intro _
          rfl
      · have hm : stop ∈ rest := by
          by_contra hmem
          have hcontra := (ih.mpr hmem).symm.trans hscan
          simp at hcontra
        constructor
        · intro hcontra
          exact absurd hcontra (by simp)
        · intro hnot
          exact absurd (List.mem_cons_of_mem c hm) hnot

/-- Without a closing bracket there is no tag match. -/
theorem findTag_none_of_not_mem (s : Str) (h : '>' ∉ s) : findTag s = none := by
  cases s with
  | nil => rfl
  | cons c rest =>
    have hc : c ≠ '>' := fun hcc => h (List.mem_cons.mpr (Or.inl hcc.symm))
    have hrest : '>' ∉ rest := fun hm => h (List.mem_cons_of_mem _ hm)
    simp only [findTag, if_neg hc, (scanTo_none_iff '>' rest).mpr hrest]

/-- The ways a tag match can fail: empty string, immediate closing bracket,
or no closing bracket at all. -/
theorem findTag_none_cases (s : Str) (h : findTag s = none) :
    s = [] ∨ (∃ r, s = '>' :: r) ∨ '>' ∉ s := by
  cases s with
  | nil => exact Or.inl rfl
  | cons c rest =>
    by_cases hc : c = '>'
    · exact Or.inr (Or.inl ⟨rest, by rw [hc]⟩)
    · simp only [findTag, if_neg hc] at h
      rcases hscan : scanTo '>' rest with _ | ⟨pre, post⟩
      · have hmem : '>' ∉ rest := (scanTo_none_iff '>' rest).mp hscan
        exact Or.inr (Or.inr fun hm =>
          (List.mem_cons.mp hm).elim (fun hq => hc hq.symm) hmem)
      · rw [hscan] at h
        simp at h

/-- Tag-free form passes to the tail. -/
theorem tagFree_tail (c : Char) (l : Str) (h : tagFree (c :: l) = true) :
    tagFree l = true :=
  (Bool.and_eq_true_iff.mp h).2

/-- A tag-free string is a fixed point of the tag scanner. -/
theorem untagF_eq_self_of_tagFree :
    ∀ (fuel : Nat) (s : Str), s.length ≤ fuel → tagFree s = true → untagF fuel s = s := by
  intro fuel
  induction fuel with
  | zero => intro s _ _; rfl
  | succ n ih =>
    intro s hl ht
    cases s with
    | nil => rfl
    | cons a rest =>
      have hrest : tagFree rest = true := tagFree_tail a rest ht
      have hlen : rest.length ≤ n := by
        simp only [List.length_cons] at hl
        omega
      by_cases ha : a = '<'
      · have hcond : (findTag rest).isNone = true := by
          have h1 := (Bool.and_eq_true_iff.mp ht).1
          rwa [if_pos ha] at h1
        have hft : findTag rest = none := Option.isNone_iff_eq_none.mp hcond
        simp only [untagF, if_pos ha, hft]
        rw [ih rest hlen hrest]
      · simp only [untagF, if_neg ha]
        rw [ih rest hlen hrest]

/-- The output of the tag scanner is tag-free. -/
theorem tagFree_untagF :
    ∀ (fuel : Nat) (s : Str), s.length ≤ fuel → tagFree (untagF fuel s) = true := by
  intro fuel
  induction fuel with
  | zero =>
    intro s hl
    have hnil : s = [] := List.length_eq_zero.mp (Nat.le_zero.mp hl)
    subst hnil
    rfl
  | succ n ih =>
    intro s hl
    cases s with
    | nil => rfl
    | cons a rest =>
      have hlen : rest.length ≤ n := by
        simp only [List.length_cons] at hl
        omega
      by_cases ha : a = '<'
      · rcases hft : findTag rest with _ | r2
        · simp only [untagF, if_pos ha, hft]
          refine Bool.and_eq_true_iff.mpr ⟨?_, ih rest hlen⟩
          rw [if_pos ha]
          rcases findTag_none_cases rest hft with hcase | ⟨r, hcase⟩ | hcase
          · subst hcase
            have h0 : untagF n ([] : Str) = [] := by cases n <;> rfl
            rw [h0]
            rfl
          · subst hcase
            cases n with
            | zero => simp [untagF, findTag]
            | succ m =>
              have hstep : untagF (m + 1) ('>' :: r) = '>' :: untagF m r := by
                simp [untagF]
              rw [hstep]
              simp [findTag]
          · have hnot : '>' ∉ untagF n rest :=
              fun hmem => hcase (mem_untagF n rest '>' hmem)
            rw [findTag_none_of_not_mem _ hnot]
            rfl
        · simp only [untagF, if_pos ha, hft]
          have hlen2 : r2.length ≤ n := by
            have := findTag_some_len rest r2 hft
            simp only [List.length_cons] at hl
            omega
          exact ih r2 hlen2
      · simp only [untagF, if_neg ha]
        refine Bool.and_eq_true_iff.mpr ⟨?_, ih rest hlen⟩
        rw [if_neg ha]

/-- A failed tag match on a longer string fails on its initial segment. -/
theorem findTag_append_none (a b : Str) (h : findTag (a ++ b) = none) :
    findTag a = none := by
  cases a with
  | nil => rfl
  | cons c rest =>
    by_cases hc : c = '>'
    · simp [findTag, hc]
    · have h' : findTag (c :: (rest ++ b)) = none := by simpa using h
      simp only [findTag, if_neg hc] at h' ⊢
      rcases hscan : scanTo '>' (rest ++ b) with _ | ⟨pre, post⟩
      · have hnot : '>' ∉ rest ++ b := (scanTo_none_iff _ _).mp hscan
        have hrest : '>' ∉ rest := fun hm => hnot (List.mem_append.mpr (Or.inl hm))
        rw [(scanTo_none_iff '>' rest).mpr hrest]
      · rw [hscan] at h'
        simp at h'

/-- Tag-free form restricts to an initial segment. -/
theorem tagFree_append_left : ∀ u v : Str, tagFree (u ++ v) = true → tagFree u = true := by
  intro u
  induction u with
  | nil => intro v _; rfl
  | cons c rest ih =>
    intro v h
    have h' : tagFree (c :: (rest ++ v)) = true := by simpa using h
    have h1 := (Bool.and_eq_true_iff.mp h').1
    have h2 := (Bool.and_eq_true_iff.mp h').2
    refine Bool.and_eq_true_iff.mpr ⟨?_, ih v h2⟩
    by_cases hc : c = '<'
    · rw [if_pos hc] at h1 ⊢
      have hnone : findTag (rest ++ v) = none := Option.isNone_iff_eq_none.mp h1
      rw [findTag_append_none rest v hnone]
      rfl
    · rw [if_neg hc]

/-- Tag-free form restricts to a final segment. -/
theorem tagFree_append_right : ∀ u v : Str, tagFree (u ++ v) = true → tagFree v = true := by
  intro u
  induction u with
  | nil => exact fun v h => h
  | cons c rest ih =>
    intro v h
    exact ih v (tagFree_tail c _ (by simpa using h))

/-- Whitespace collapsing preserves tag-free form. -/
theorem tagFree_collapseAux :
    ∀ (s : Str) (b : Bool), tagFree s = true → tagFree (collapseAux b s) = true := by
  intro s
  induction s with
  | nil => intro b _; rfl
  | cons a rest ih =>
    intro b h
    have h1 := (Bool.and_eq_true_iff.mp h).1
    have h2 := (Bool.and_eq_true_iff.mp h).2
    by_cases ha : isPySpace a
    · cases b
      · rw [collapseAux_false_space a rest ha]
        refine Bool.and_eq_true_iff.mpr ⟨?_, ih true h2⟩
        rw [if_neg (by decide : ¬ (' ' = '<'))]
      · rw [collapseAux_true_space a rest ha]
        exact ih true h2
    · have ha' : isPySpace a = false := by simpa using ha
      rw [collapseAux_nospace b a rest ha']
      refine Bool.and_eq_true_iff.mpr ⟨?_, ih false h2⟩
      by_cases hA : a = '<'
      · rw [if_pos hA]
        rw [if_pos hA] at h1
        have hnone : findTag rest = none := Option.isNone_iff_eq_none.mp h1
        rcases findTag_none_cases rest hnone with hcase | ⟨r, hcase⟩ | hcase
        · subst hcase
          rfl
        · subst hcase
          rw [collapseAux_nospace false '>' r (by decide)]
          simp [findTag]
        · have hnot : '>' ∉ collapseAux false rest := by
            intro hmem
            rcases mem_collapseAux rest false '>' hmem with hmm | hmm
            · exact hcase hmm
            · exact absurd hmm (by decide)
          rw [findTag_none_of_not_mem _ hnot]
          rfl
      · rw [if_neg hA]

/-- Stripping preserves tag-free form. -/
theorem tagFree_pyStrip (s : Str) (h : tagFree s = true) : tagFree (pyStrip s) = true := by
  have h1 : tagFree (s.dropWhile isPySpace) = true := by
    obtain ⟨u, hu⟩ : ∃ u, s = u ++ s.dropWhile isPySpace :=
      ⟨s.takeWhile isPySpace, (List.takeWhile_append_dropWhile isPySpace s).symm⟩
    exact tagFree_append_right u _ (hu ▸ h)
  obtain ⟨w, hw⟩ := rstrip_append (s.dropWhile isPySpace)
  exact tagFree_append_left _ w (hw ▸ h1)

/-- Every character of a noise-removal output either survived the
control-character filter or is a separator space. -/
theorem mem_core_chars (s : Str) (c : Char) (h : c ∈ clean_mcphost_core s) :
    goodChar c = true ∨ c = ' ' := by
  have h1 : c ∈ collapseWs (untag (stripCtrl
      (joinSp (((splitOnNl s).filter keepLine).map pyStrip)))) := mem_pyStrip _ _ h
  rcases mem_collapseAux _ false c h1 with h2 | h2
  · have h3 := mem_untagF _ _ c h2
    exact Or.inl (List.of_mem_filter h3)
  · exact Or.inr h2

/-- Characters kept by the control filter have ordinal at least 32. -/
theorem goodChar_ge (c : Char) (h : goodChar c = true) : 32 ≤ c.toNat := by
  simp only [goodChar, decide_eq_true_eq, not_or] at h
  omega

/-- C8: the output of clean_mcphost_response never contains a character
with ordinal below 32, whatever the input. -/
theorem noise_output_no_control_chars (r : Option Str) :
    (clean_mcphost_response r).all (fun c => decide (32 ≤ c.toNat)) = true := by
  rw [List.all_eq_true]
  intro c hc
  rcases r with _ | s
  · simp [clean_mcphost_response] at hc
  · by_cases hs : s.isEmpty
    · simp [clean_mcphost_response, hs] at hc
    · have hcore : c ∈ clean_mcphost_core s := by
        simpa [clean_mcphost_response, hs] using hc
      rcases mem_core_chars s c hcore with h | h
      · simpa using goodChar_ge c h
      · subst h
        decide

/-- A newline-free string splits into a single line. -/
theorem splitOnNl_single (y : Str) (h : '\n' ∉ y) : splitOnNl y = [y] := by
  induction y with
  | nil => rfl
  | cons c rest ih =>
    have hc : c ≠ '\n' := fun hcc => h (List.mem_cons.mpr (Or.inl hcc.symm))
    have hrest : '\n' ∉ rest := fun hm => h (List.mem_cons_of_mem _ hm)
    simp only [splitOnNl, if_neg hc, ih hrest]

/-- No newline survives noise removal. -/
theorem core_no_nl (s : Str) : '\n' ∉ clean_mcphost_core s := by
  intro hmem
  rcases mem_core_chars s _ hmem with h | h
  · exact absurd h (by decide)
  · exact absurd h (by decide)

/-- The output of noise removal is a fixed point of the control filter. -/
theorem stripCtrl_core (s : Str) : stripCtrl (clean_mcphost_core s) = clean_mcphost_core s := by
  rw [stripCtrl, List.filter_eq_self]
  intro c hc
  rcases mem_core_chars s c hc with h | h
  · exact h
  · subst h
    decide

/-- The output of noise removal is stripped, whitespace-normal and
tag-free. -/
theorem core_props (s : Str) :
    pyStrip (clean_mcphost_core s) = clean_mcphost_core s ∧
    wsNormal (clean_mcphost_core s) = true ∧
    tagFree (clean_mcphost_core s) = true := by
  unfold clean_mcphost_core
  exact ⟨pyStrip_idem _, wsNormal_pyStrip _ (wsNormal_collapseAux _ false),
    tagFree_pyStrip _ (tagFree_collapseAux _ false (tagFree_untagF _ _ (le_refl _)))⟩

/-- Running the noise-removal core on one of its own fixed-point-shaped
outputs either returns it unchanged (when the line filter keeps it) or
empties it (when the output itself contains a denylisted substring). -/
theorem core_second (y : Str) (hstrip : pyStrip y = y) (hws : wsNormal y = true)
    (htf : tagFree y = true) (hctrl : stripCtrl y = y) (hnl : '\n' ∉ y) :
    clean_mcphost_core y = y ∨ clean_mcphost_core y = [] := by
  have hsplit : splitOnNl y = [y] := splitOnNl_single y hnl
  by_cases hk : keepLine y = true
  · left
    have hfm : ((splitOnNl y).filter keepLine).map pyStrip = [y] := by
      rw [hsplit]
      simp [List.filter_cons, hk, hstrip]
    unfold clean_mcphost_core
    rw [hfm]
    have hjoin : joinSp [y] = y := rfl
    rw [hjoin, hctrl,
      show untag y = y from untagF_eq_self_of_tagFree y.length y (le_refl _) htf,
      show collapseWs y = y from collapse_fix y hws]
    exact hstrip
  · right
    have hfm : ((splitOnNl y).filter keepLine).map pyStrip = [] := by
      rw [hsplit]
      simp [List.filter_cons, hk]
    unfold clean_mcphost_core
    rw [hfm]
    rfl

/-- C1 counterexample: the noise-removal stage is not idempotent. On the
input consisting of b, e, an XML-like tag and f, o, r, e, the first pass
strips the tag and yields the word before, which the second pass drops as
a denylisted substring, giving the empty string. -/
theorem noise_removal_not_idempotent :
    clean_mcphost_response (some (clean_mcphost_response (some (toStr "be<b>fore")))) ≠
      clean_mcphost_response (some (toStr "be<b>fore")) := by
  decide

/-- C1 (amended): both sanitizer stages are pure, but neither is idempotent
for every input. A second application of the noise-removal stage either
returns the first output unchanged or returns the empty string — the
latter exactly when tag or control stripping has produced a denylisted
substring that the line filter then drops. The speech-shaping stage can
rewrite its own output again when that output still contains a
markdown-link pattern, as nested links produce. -/
theorem sanitizer_second_application :
    (∀ r : Option Str,
      clean_mcphost_response (some (clean_mcphost_response r)) = clean_mcphost_response r ∨
      clean_mcphost_response (some (clean_mcphost_response r)) = []) ∧
    clean_text_for_speech (clean_text_for_speech (toStr "[[a](b)](c)")) ≠
      clean_text_for_speech (toStr "[[a](b)](c)") := by
  refine ⟨fun r => ?_, by decide⟩
  rcases r with _ | s
  · exact Or.inl rfl
  · by_cases hs : s.isEmpty
    · have h0 : clean_mcphost_response (some s) = [] := by
        simp [clean_mcphost_response, hs]
      rw [h0]
      exact Or.inl rfl
    · have hy : clean_mcphost_response (some s) = clean_mcphost_core s := by
        simp [clean_mcphost_response, hs]
      rw [hy]
      by_cases hnil : clean_mcphost_core s = []
      · rw [hnil]
        exact Or.inl rfl
      · have hemp : (clean_mcphost_core s).isEmpty = false := by
          rcases hcc : clean_mcphost_core s with _ | ⟨a, l⟩
          · exact absurd hcc hnil
          · rfl
        have hstep : clean_mcphost_response (some (clean_mcphost_core s)) =
            clean_mcphost_core (clean_mcphost_core s) := by
          simp [clean_mcphost_response, hemp]
        rw [hstep]
        obtain ⟨h1, h2, h3⟩ := core_props s
        exact core_second (clean_mcphost_core s) h1 h2 h3 (stripCtrl_core s) (core_no_nl s)

end VoiceMcp
